import Mathlib

/-!
Verification of the client-side SSE streaming response decoder of
`src/App.js` (`handleChatSubmit`, lines 275-368).

The decoder is embedded shallowly over `List Char`:
* `splitSep a b` models JavaScript `String.prototype.split` on a
  two-character separator (leftmost, non-overlapping), specialised to the
  record delimiter `"\n\n"` by `splitNN`.
* `trimList` models `String.prototype.trim` (ASCII whitespace).
* `unescape` models `s.replace(/\\n/g, '\n')` (global leftmost scan).
* `DecodeState` carries the mutable locals of the streaming loop
  (`aiResponse`, `buffer`, `statusMsg`) together with the chat history
  (`hist`, mirroring the `setChatHistory` calls) and a log `published` of
  every assistant-text publication, in order.
* `processLine` is the body of the record loop (lines 304-325),
  `processChunk` one iteration of the `while` loop (lines 287-327),
  `flushBuffer` the end-of-stream remainder handling (lines 330-341),
  `resolveText`/`completeStep` the final publication (lines 344-351), and
  `runTurnErr` the catch branch (lines 359-365).
-/

def strL (s : String) : List Char := s.toList

/-- ASCII whitespace, as trimmed by JavaScript `trim` (restricted to the
ASCII range; the wire format only produces ASCII whitespace). -/
def isWS (c : Char) : Bool :=
  c = ' ' || c = '\t' || c = '\n' || c = '\r' || c = '\x0b' || c = '\x0c'

/-- JavaScript `String.prototype.trim`: drop whitespace from both ends. -/
def trimList (l : List Char) : List Char :=
  ((l.dropWhile isWS).reverse.dropWhile isWS).reverse

/-- Prepend a character to the first segment of a split result. -/
def consHead (c : Char) : List (List Char) → List (List Char)
  | [] => [[c]]
  | s :: ss => (c :: s) :: ss

/-- JavaScript `String.prototype.split` on the two-character separator
`[a, b]`: leftmost, non-overlapping occurrences; always returns at least
one segment. -/
def splitSep (a b : Char) : List Char → List (List Char)
  | [] => [[]]
  | [x] => [[x]]
  | x :: y :: rest =>
    if x = a ∧ y = b then [] :: splitSep a b rest
    else consHead x (splitSep a b (y :: rest))

/-- `buffer.split('\n\n')` (line 294). -/
def splitNN (l : List Char) : List (List Char) := splitSep '\n' '\n' l

/-- `parts[parts.length - 1]` (line 297). -/
def lastPart : List (List Char) → List Char
  | [] => []
  | [s] => s
  | _ :: s :: rest => lastPart (s :: rest)

/-- `parts[0] .. parts[parts.length - 2]`, the complete records processed
by the `for` loop (line 300). -/
def leadParts : List (List Char) → List (List Char)
  | [] => []
  | [_] => []
  | x :: s :: rest => x :: leadParts (s :: rest)

/-- `line.replace(/\\n/g, '\n')` (lines 306, 333): every literal
backslash-n pair becomes a real newline, scanning left to right. -/
def unescape : List Char → List Char
  | [] => []
  | [x] => [x]
  | x :: y :: rest =>
    if x = '\\' ∧ y = 'n' then '\n' :: unescape rest
    else x :: unescape (y :: rest)

def dataTag : List Char := strL "data: "

def statusTag : List Char := strL "status: "

def finalTag : List Char := strL "final: "

def noResponseSentinel : List Char := strL "No response"

def noResponseFallback : List Char := strL "No response generated."

inductive Role where
  | user : Role
  | ai : Role
deriving DecidableEq

structure Msg where
  role : Role
  content : List Char
  streaming : Bool
deriving DecidableEq

/-- The decoder's state: the locals `aiResponse`, `buffer`, `statusMsg` of
`handleChatSubmit`, the chat history `hist`, and the ordered log
`published` of every assistant text handed to `setChatHistory`. -/
structure DecodeState where
  aiResponse : List Char
  buffer : List Char
  statusMsg : List Char
  published : List (List Char)
  hist : List Msg
deriving DecidableEq

/-- `hist[hist.length - 1]` guarded by `lastIdx >= 0`. -/
def lastMsg : List Msg → Option Msg
  | [] => none
  | [m] => some m
  | _ :: m :: rest => lastMsg (m :: rest)

/-- `newHistory[lastIdx] = m` on a copy of the history. -/
def setLast (hist : List Msg) (m : Msg) : List Msg :=
  match hist with
  | [] => []
  | [_] => [m]
  | x :: y :: rest => x :: setLast (y :: rest) m

/-- The `setChatHistory` updater used for streaming updates and the final
publication (lines 308-315, 344-351): replace the last message if it is an
assistant message. -/
def publishLast (hist : List Msg) (text : List Char) (s : Bool) : List Msg :=
  match lastMsg hist with
  | some m => if m.role = Role.ai then setLast hist ⟨Role.ai, text, s⟩ else hist
  | none => hist

/-- Body of the record loop (lines 304-325), applied to the trimmed,
non-empty record `line`. -/
def processLine (st : DecodeState) (line : List Char) : DecodeState :=
  if dataTag.isPrefixOf line then
    let content := unescape (line.drop 6)
    let newText := st.aiResponse ++ content
    { st with aiResponse := newText,
              published := st.published ++ [newText],
              hist := publishLast st.hist newText true }
  else if statusTag.isPrefixOf line then
    { st with statusMsg := line.drop 8 }
  else if finalTag.isPrefixOf line then
    let fc := trimList (line.drop 7)
    if fc ≠ [] ∧ fc ≠ noResponseSentinel ∧ st.aiResponse = [] then
      { st with aiResponse := fc }
    else st
  else st

/-- One iteration of the record loop: trim, skip empty, classify
(lines 301-303). -/
def stepPart (st : DecodeState) (p : List Char) : DecodeState :=
  let line := trimList p
  if line = [] then st else processLine st line

/-- One iteration of the `while` chunk loop (lines 291-326): append the
chunk to the buffer, split on the delimiter, keep the last segment as the
new buffer, and process all complete records in order. -/
def processChunk (st : DecodeState) (chunk : List Char) : DecodeState :=
  let parts := splitNN (st.buffer ++ chunk)
  (leadParts parts).foldl stepPart { st with buffer := lastPart parts }

/-- End-of-stream handling of the remaining buffer (lines 330-341). Note:
unlike the loop, the `final:` branch here has no `'No response'` sentinel
check, and the `data:` branch does not publish. -/
def flushBuffer (st : DecodeState) : DecodeState :=
  let line := trimList st.buffer
  if line = [] then st
  else if dataTag.isPrefixOf line then
    { st with aiResponse := st.aiResponse ++ unescape (line.drop 6) }
  else if finalTag.isPrefixOf line then
    let fc := trimList (line.drop 7)
    if fc ≠ [] ∧ st.aiResponse = [] then { st with aiResponse := fc } else st
  else st

/-- `aiResponse || 'No response generated.'` (line 348). -/
def resolveText (st : DecodeState) : List Char :=
  if st.aiResponse = [] then noResponseFallback else st.aiResponse

/-- The final `setChatHistory` at stream completion (lines 344-351). -/
def completeStep (st : DecodeState) : DecodeState :=
  let t := resolveText st
  { st with published := st.published ++ [t],
            hist := publishLast st.hist t false }

/-- State just after the streaming placeholder is appended (line 284):
empty response and buffer, the placeholder logged as the first
publication. -/
def initState (base : List Msg) : DecodeState :=
  ⟨[], [], [], [[]], base ++ [⟨Role.ai, [], true⟩]⟩

/-- The chunk loop over a whole stream. -/
def runLoop (chunks : List (List Char)) : DecodeState :=
  chunks.foldl processChunk (initState [])

/-- Loop, flush and final publication: a successfully completed session. -/
def runStream (chunks : List (List Char)) : DecodeState :=
  completeStep (flushBuffer (runLoop chunks))

/-- The assistant text resolved at stream end. -/
def finalText (chunks : List (List Char)) : List Char :=
  resolveText (flushBuffer (runLoop chunks))

/-- The complete records produced by the whole stream. -/
def recordsOf (chunks : List (List Char)) : List (List Char) :=
  leadParts (splitNN chunks.flatten)

/-- The trailing remainder left in the buffer at end of stream. -/
def remainderOf (chunks : List (List Char)) : List Char :=
  lastPart (splitNN chunks.flatten)

/-- The Line Splitter alone, as a fold: records collected so far plus the
carried buffer. -/
def splitterFeed (acc : List (List Char) × List Char) (chunk : List Char) :
    List (List Char) × List Char :=
  let parts := splitNN (acc.2 ++ chunk)
  (acc.1 ++ leadParts parts, lastPart parts)

/-- The unescaped Content payload a record contributes, if any: mirrors
the guard and extraction of the `data:` branches (lines 304-306 and
332-333). -/
def contentOf (p : List Char) : Option (List Char) :=
  let line := trimList p
  if line = [] then none
  else if dataTag.isPrefixOf line then some (unescape (line.drop 6))
  else none

/-- The usable Final payload a record carries in the main loop, if any:
non-empty and not the sentinel (lines 319-324). -/
def loopFinalOf (p : List Char) : Option (List Char) :=
  let line := trimList p
  if line = [] then none
  else if dataTag.isPrefixOf line then none
  else if statusTag.isPrefixOf line then none
  else if finalTag.isPrefixOf line then
    let fc := trimList (line.drop 7)
    if fc ≠ [] ∧ fc ≠ noResponseSentinel then some fc else none
  else none

/-- The Final payload the flush would use, if any: non-empty, with no
sentinel check (lines 335-340). -/
def flushFinalOf (p : List Char) : Option (List Char) :=
  let line := trimList p
  if line = [] then none
  else if dataTag.isPrefixOf line then none
  else if finalTag.isPrefixOf line then
    let fc := trimList (line.drop 7)
    if fc ≠ [] then some fc else none
  else none

/-- All unescaped Content payloads of a stream, in order: those of the
complete records followed by the one of the flushed remainder, if any. -/
def allContents (chunks : List (List Char)) : List (List Char) :=
  (recordsOf chunks).filterMap contentOf ++ (contentOf (remainderOf chunks)).toList

/-- Everything the UI can observe of a decoder state: all fields except
the log-only `statusMsg`. -/
def visible (st : DecodeState) : List Char × List Char × List (List Char) × List Msg :=
  (st.aiResponse, st.buffer, st.published, st.hist)

/-- The user message appended when a query is submitted (line 240). -/
def userMsg (q : List Char) : Msg := ⟨Role.user, q, false⟩

/-- The synthesized error text of the catch branch (lines 362-363), with
`API_BASE_URL` at its default value. -/
def errText : List Char :=
  strL "Error connecting to backend. Make sure the server is running at http://localhost:8000"

def errMsg : Msg := ⟨Role.ai, errText, false⟩

/-- A turn that fails with a transport error after consuming `chunks`:
the catch branch appends a single error message to whatever history the
loop left behind (lines 359-365); the flush and completion steps are
skipped. -/
def runTurnErr (prev : List Msg) (q : List Char) (chunks : List (List Char)) : List Msg :=
  (chunks.foldl processChunk (initState (prev ++ [userMsg q]))).hist ++ [errMsg]

/-! ### Generic list helpers for `lastPart` / `leadParts` -/

theorem lastPart_cons_of_ne_nil (x : List Char) (L : List (List Char)) (h : L ≠ []) :
    lastPart (x :: L) = lastPart L := by
  cases L with
  | nil => exact absurd rfl h
  | cons y rest => rfl

theorem leadParts_cons_of_ne_nil (x : List Char) (L : List (List Char)) (h : L ≠ []) :
    leadParts (x :: L) = x :: leadParts L := by
  cases L with
  | nil => exact absurd rfl h
  | cons y rest => rfl

theorem lastPart_append_of_ne_nil (L M : List (List Char)) (h : M ≠ []) :
    lastPart (L ++ M) = lastPart M := by
  induction L with
  | nil => rfl
  | cons x L ih =>
    have hLM : L ++ M ≠ [] := by
      intro hc
      rcases List.append_eq_nil.mp hc with ⟨-, h2⟩
      exact h h2
    rw [List.cons_append, lastPart_cons_of_ne_nil x (L ++ M) hLM, ih]

theorem leadParts_append_of_ne_nil (L M : List (List Char)) (h : M ≠ []) :
    leadParts (L ++ M) = L ++ leadParts M := by
  induction L with
  | nil => rfl
  | cons x L ih =>
    have hLM : L ++ M ≠ [] := by
      intro hc
      rcases List.append_eq_nil.mp hc with ⟨-, h2⟩
      exact h h2
    rw [List.cons_append, leadParts_cons_of_ne_nil x (L ++ M) hLM, ih, List.cons_append]

theorem lastPart_concat (L : List (List Char)) (s : List Char) :
    lastPart (L ++ [s]) = s := by
  rw [lastPart_append_of_ne_nil L [s] (by simp)]
  rfl

theorem leadParts_concat (L : List (List Char)) (s : List Char) :
    leadParts (L ++ [s]) = L := by
  rw [leadParts_append_of_ne_nil L [s] (by simp)]
  simp [leadParts]

/-! ### The splitter: basic properties -/

theorem consHead_ne_nil (c : Char) (L : List (List Char)) : consHead c L ≠ [] := by
  cases L <;> simp [consHead]

theorem splitSep_ne_nil (a b : Char) (l : List Char) : splitSep a b l ≠ [] := by
  induction l using splitSep.induct a b with
  | case1 => simp [splitSep]
  | case2 x => simp [splitSep]
  | case3 x y rest h ih => simp [splitSep, h]
  | case4 x y rest h ih =>
    simp only [splitSep, if_neg h]
    exact consHead_ne_nil x _

theorem splitSep_single (a b : Char) :
    ∀ l s : List Char, splitSep a b l = [s] → s = l := by
  intro l
  induction l using splitSep.induct a b with
  | case1 =>
    intro s h
    simp only [splitSep] at h
    injection h with h1 _
    exact h1.symm
  | case2 x =>
    intro s h
    simp only [splitSep] at h
    injection h with h1 _
    exact h1.symm
  | case3 x y rest hxy ih =>
    intro s h
    simp only [splitSep, if_pos hxy] at h
    injection h with _ h2
    exact absurd h2 (splitSep_ne_nil a b rest)
  | case4 x y rest hxy ih =>
    intro s h
    simp only [splitSep, if_neg hxy] at h
    cases hS : splitSep a b (y :: rest) with
    | nil => exact absurd hS (splitSep_ne_nil a b (y :: rest))
    | cons s0 ss =>
      rw [hS] at h
      simp only [consHead] at h
      injection h with h1 h2
      rw [← h1, ih s0 (by rw [hS, h2])]

/-- Splitting a concatenation: the records of `u` are produced unchanged,
and the last segment of `u` is carried into the split of the rest. This is
the core of the Line Splitter's associativity. -/
theorem splitSep_append (a b : Char) :
    ∀ u v : List Char,
      splitSep a b (u ++ v) =
        leadParts (splitSep a b u) ++
          splitSep a b (lastPart (splitSep a b u) ++ v) := by
  intro u
  induction u using splitSep.induct a b with
  | case1 =>
    intro v
    simp [splitSep, lastPart, leadParts]
  | case2 x =>
    intro v
    simp [splitSep, lastPart, leadParts]
  | case3 x y rest hxy ih =>
    intro v
    have hS := splitSep_ne_nil a b rest
    simp only [List.cons_append, List.append_eq, splitSep, if_pos hxy]
    rw [leadParts_cons_of_ne_nil _ _ hS, lastPart_cons_of_ne_nil _ _ hS,
      List.cons_append, ih v]
  | case4 x y rest hxy ih =>
    intro v
    have hL : splitSep a b ((x :: y :: rest) ++ v) =
        consHead x (splitSep a b ((y :: rest) ++ v)) := by
      simp only [List.cons_append, List.append_eq, splitSep, if_neg hxy]
    have hR : splitSep a b (x :: y :: rest) = consHead x (splitSep a b (y :: rest)) := by
      simp only [splitSep, if_neg hxy]
    rw [hL, hR, ih v]
    cases hS : splitSep a b (y :: rest) with
    | nil => exact absurd hS (splitSep_ne_nil a b (y :: rest))
    | cons s0 ss =>
      cases ss with
      | nil =>
        have hs0 : s0 = y :: rest := splitSep_single a b (y :: rest) s0 hS
        simp only [consHead, leadParts, lastPart, List.nil_append]
        rw [hs0]
        simp only [List.cons_append, List.append_eq, splitSep, if_neg hxy]
        cases splitSep a b (y :: (rest ++ v)) <;> rfl
      | cons t ts =>
        simp [consHead, leadParts, lastPart, List.cons_append]

/-- The carried remainder never contains the delimiter: splitting it again
yields it back as a single segment. -/
theorem splitSep_lastPart (a b : Char) (l : List Char) :
    splitSep a b (lastPart (splitSep a b l)) = [lastPart (splitSep a b l)] := by
  induction l using splitSep.induct a b with
  | case1 => simp [splitSep, lastPart]
  | case2 x => simp [splitSep, lastPart]
  | case3 x y rest hxy ih =>
    have hS := splitSep_ne_nil a b rest
    simp only [splitSep, if_pos hxy]
    rw [lastPart_cons_of_ne_nil _ _ hS]
    exact ih
  | case4 x y rest hxy ih =>
    have hR : splitSep a b (x :: y :: rest) = consHead x (splitSep a b (y :: rest)) := by
      simp only [splitSep, if_neg hxy]
    rw [hR]
    cases hS : splitSep a b (y :: rest) with
    | nil => exact absurd hS (splitSep_ne_nil a b (y :: rest))
    | cons s0 ss =>
      cases ss with
      | nil =>
        have hs0 : s0 = y :: rest := splitSep_single a b (y :: rest) s0 hS
        simp only [consHead, lastPart]
        rw [hs0]
        simp only [splitSep, if_neg hxy, hS, consHead, hs0]
      | cons t ts =>
        rw [hS] at ih
        simp only [consHead, lastPart]
        simp only [lastPart] at ih
        exact ih

theorem splitNN_ne_nil (l : List Char) : splitNN l ≠ [] :=
  splitSep_ne_nil '\n' '\n' l

theorem splitNN_append (u v : List Char) :
    splitNN (u ++ v) = leadParts (splitNN u) ++ splitNN (lastPart (splitNN u) ++ v) :=
  splitSep_append '\n' '\n' u v

theorem splitNN_lastPart (l : List Char) :
    splitNN (lastPart (splitNN l)) = [lastPart (splitNN l)] :=
  splitSep_lastPart '\n' '\n' l

/-- Feeding the Line Splitter chunk by chunk, starting from any
delimiter-free buffer, is the same as splitting the buffer and all chunks
in one call. -/
theorem splitterFeed_general :
    ∀ (chunks : List (List Char)) (recs : List (List Char)) (buf : List Char),
      splitNN buf = [buf] →
      chunks.foldl splitterFeed (recs, buf) =
        (recs ++ leadParts (splitNN (buf ++ chunks.flatten)),
         lastPart (splitNN (buf ++ chunks.flatten))) := by
  intro chunks
  induction chunks with
  | nil =>
    intro recs buf h
    simp [h, leadParts, lastPart]
  | cons c cs ih =>
    intro recs buf h
    rw [List.foldl_cons]
    have hfeed : splitterFeed (recs, buf) c =
        (recs ++ leadParts (splitNN (buf ++ c)), lastPart (splitNN (buf ++ c))) := rfl
    rw [hfeed, ih _ _ (splitNN_lastPart (buf ++ c)),
      List.flatten_cons, ← List.append_assoc, splitNN_append (buf ++ c) cs.flatten,
      leadParts_append_of_ne_nil _ _ (splitNN_ne_nil _),
      lastPart_append_of_ne_nil _ _ (splitNN_ne_nil _),
      List.append_assoc]

/-! ### Frame lemmas: the record loop never touches the buffer -/

theorem processLine_buffer (st : DecodeState) (line : List Char) :
    (processLine st line).buffer = st.buffer := by
  simp only [processLine]
  split_ifs <;> rfl

theorem stepPart_buffer (st : DecodeState) (p : List Char) :
    (stepPart st p).buffer = st.buffer := by
  simp only [stepPart]
  split_ifs with h
  · rfl
  · exact processLine_buffer st (trimList p)

theorem foldl_stepPart_buffer (ps : List (List Char)) :
    ∀ st : DecodeState, (ps.foldl stepPart st).buffer = st.buffer := by
  induction ps with
  | nil => intro st; rfl
  | cons p ps ih => intro st; rw [List.foldl_cons, ih, stepPart_buffer]

theorem processLine_set_buffer (st : DecodeState) (line b : List Char) :
    processLine { st with buffer := b } line = { processLine st line with buffer := b } := by
  cases st
  simp only [processLine]
  split_ifs <;> rfl

theorem stepPart_set_buffer (st : DecodeState) (p b : List Char) :
    stepPart { st with buffer := b } p = { stepPart st p with buffer := b } := by
  simp only [stepPart]
  split_ifs with h
  · rfl
  · exact processLine_set_buffer st (trimList p) b

theorem foldl_stepPart_set_buffer (ps : List (List Char)) :
    ∀ (st : DecodeState) (b : List Char),
      ps.foldl stepPart { st with buffer := b } = { ps.foldl stepPart st with buffer := b } := by
  induction ps with
  | nil => intro st b; rfl
  | cons p ps ih =>
    intro st b
    rw [List.foldl_cons, List.foldl_cons, stepPart_set_buffer, ih]

/-- Master lemma: running the chunk loop from a delimiter-free buffer is
the same as processing all complete records of the concatenated stream in
order, with the final remainder left in the buffer. -/
theorem foldl_processChunk_eq :
    ∀ (chunks : List (List Char)) (st : DecodeState),
      splitNN st.buffer = [st.buffer] →
      chunks.foldl processChunk st =
        (leadParts (splitNN (st.buffer ++ chunks.flatten))).foldl stepPart
          { st with buffer := lastPart (splitNN (st.buffer ++ chunks.flatten)) } := by
  intro chunks
  induction chunks with
  | nil =>
    intro st h
    simp [h, leadParts, lastPart]
  | cons c cs ih =>
    intro st h
    rw [List.foldl_cons]
    have h1 : processChunk st c =
        (leadParts (splitNN (st.buffer ++ c))).foldl stepPart
          { st with buffer := lastPart (splitNN (st.buffer ++ c)) } := rfl
    have hbuf : (processChunk st c).buffer = lastPart (splitNN (st.buffer ++ c)) := by
      rw [h1, foldl_stepPart_buffer]
    have hinv : splitNN (processChunk st c).buffer = [(processChunk st c).buffer] := by
      rw [hbuf]; exact splitNN_lastPart (st.buffer ++ c)
    rw [ih _ hinv, hbuf, List.flatten_cons, ← List.append_assoc,
      splitNN_append (st.buffer ++ c) cs.flatten,
      leadParts_append_of_ne_nil _ _ (splitNN_ne_nil _),
      lastPart_append_of_ne_nil _ _ (splitNN_ne_nil _),
      List.foldl_append]
    congr 1
    rw [foldl_stepPart_set_buffer, h1, foldl_stepPart_set_buffer]

theorem runLoop_eq (chunks : List (List Char)) :
    runLoop chunks =
      (recordsOf chunks).foldl stepPart
        { initState [] with buffer := remainderOf chunks } := by
  have h := foldl_processChunk_eq chunks (initState []) rfl
  simpa [recordsOf, remainderOf] using h

/-! ### Claim theorems -/

/-- Claim C3: for every text and every partition of it into chunks, feeding
the chunks one at a time through the line splitter (append to buffer, split
on the double newline, keep the last segment as the new buffer) yields the
same ordered sequence of complete records and the same final remainder as
splitting the whole text in a single call. -/
theorem C3_split_associativity (chunks : List (List Char)) :
    chunks.foldl splitterFeed ([], []) =
      (leadParts (splitNN chunks.flatten), lastPart (splitNN chunks.flatten)) := by
  have h := splitterFeed_general chunks [] [] rfl
  simpa using h

/-- Claim C1, as stated, is false: a lone `final: No response` record that
arrives as the trailing remainder (no closing delimiter) is flushed through
the end-of-stream branch, which lacks the sentinel check, so the resolved
text is the sentinel `"No response"` itself rather than
`"No response generated."`. -/
theorem C1_sentinel_suppression_counterexample :
    finalText [strL "final: No response"] = strL "No response" ∧
    strL "No response" ≠ strL "No response generated." := by
  decide

/-- Claim C1 (amended): a lone `final: No response` record with empty
Content history resolves to `"No response generated."` when it arrives
delimiter-terminated and is processed by the main loop — under any
partition of the stream into chunks — but when it arrives as the trailing
remainder flushed at end-of-stream the sentinel check is skipped and the
resolved text is `"No response"`. -/
theorem C1_sentinel_suppression :
    (∀ chunks : List (List Char),
      chunks.flatten = strL "final: No response\n\n" →
      finalText chunks = strL "No response generated.") ∧
    finalText [strL "final: No response"] = strL "No response" := by
  constructor
  · intro chunks h
    unfold finalText
    rw [runLoop_eq]
    unfold recordsOf remainderOf
    rw [h]
    decide
  · decide

/-- Claim C1, witness: the delimiter-terminated sentinel stream, split
across two chunks, resolves to the fallback string. -/
theorem C1_sentinel_suppression_witness :
    finalText [strL "final: No", strL " response\n\n"] = strL "No response generated." :=
  C1_sentinel_suppression.1 [strL "final: No", strL " response\n\n"] (by decide)

/-! ### Characterising the branch guards -/

theorem isPrefixOf_true_iff : ∀ l1 l2 : List Char,
    l1.isPrefixOf l2 = true ↔ ∃ t, l2 = l1 ++ t := by
  intro l1
  induction l1 with
  | nil =>
    intro l2
    simp [List.isPrefixOf]
  | cons a as ih =>
    intro l2
    cases l2 with
    | nil => simp [List.isPrefixOf]
    | cons b bs =>
      simp only [List.isPrefixOf, Bool.and_eq_true, beq_iff_eq, List.cons_append,
        List.cons.injEq]
      constructor
      · rintro ⟨hab, h⟩
        obtain ⟨t, ht⟩ := (ih bs).mp h
        exact ⟨t, hab.symm, ht⟩
      · rintro ⟨t, h1, h2⟩
        exact ⟨h1.symm, (ih bs).mpr ⟨t, h2⟩⟩

theorem getLastD_concat (L : List Char) (x d : Char) :
    (L ++ [x]).getLastD d = x := by
  induction L generalizing d with
  | nil => rfl
  | cons y L ih => simp [List.getLastD, ih]

theorem headD_of_ne_nil (l : List Char) (d1 d2 : Char) (h : l ≠ []) :
    l.headD d1 = l.headD d2 := by
  cases l with
  | nil => exact absurd rfl h
  | cons x xs => rfl

theorem getLastD_reverse (l : List Char) (d : Char) :
    l.reverse.getLastD d = l.headD d := by
  cases l with
  | nil => rfl
  | cons x xs => simp [List.reverse_cons, getLastD_concat]

theorem headD_dropWhile_false (p : Char → Bool) (l : List Char) (d : Char)
    (h : l.dropWhile p ≠ []) : p ((l.dropWhile p).headD d) = false := by
  induction l with
  | nil => exact absurd rfl h
  | cons x xs ih =>
    by_cases hx : p x = true
    · rw [List.dropWhile_cons_of_pos hx] at h ⊢
      exact ih h
    · rw [List.dropWhile_cons_of_neg hx] at h ⊢
      simpa using hx

/-- A non-empty trimmed string never ends in whitespace. -/
theorem trimList_last_not_ws (l : List Char) (d : Char) (h : trimList l ≠ []) :
    isWS ((trimList l).getLastD d) = false := by
  unfold trimList at h ⊢
  rw [getLastD_reverse]
  apply headD_dropWhile_false
  intro hc
  rw [hc] at h
  exact h rfl

theorem unescape_ne_nil : ∀ l : List Char, l ≠ [] → unescape l ≠ [] := by
  intro l
  induction l using unescape.induct with
  | case1 => intro h; exact absurd rfl h
  | case2 x => intro _; simp [unescape]
  | case3 x y rest hxy ih => intro _; simp [unescape, if_pos hxy]
  | case4 x y rest hxy ih => intro _; simp [unescape, if_neg hxy]

/-- A record classified as Content always contributes a non-empty payload:
the trimmed line strictly extends the `"data: "` tag (a trimmed string
cannot end in the tag's space), and unescaping preserves non-emptiness. -/
theorem contentOf_some_ne_nil (p c : List Char) (h : contentOf p = some c) : c ≠ [] := by
  simp only [contentOf] at h
  split_ifs at h with h1 h2
  · injection h with h3
    obtain ⟨t, ht⟩ := (isPrefixOf_true_iff dataTag (trimList p)).mp h2
    cases t with
    | nil =>
      exfalso
      have hlast := trimList_last_not_ws p ' ' h1
      rw [ht] at hlast
      simp [dataTag, strL, getLastD_concat] at hlast
      exact absurd hlast (by simp [isWS])
    | cons u us =>
      have hdrop : (trimList p).drop 6 = u :: us := by
        rw [ht]
        have : dataTag.length = 6 := by decide
        rw [show (6 : Nat) = dataTag.length from this.symm, List.drop_left]
      rw [← h3, hdrop]
      exact unescape_ne_nil (u :: us) (by simp)

/-- A Content record appends its unescaped payload and publishes the new
text; nothing else changes. -/
theorem stepPart_content (st : DecodeState) (p c : List Char) (h : contentOf p = some c) :
    stepPart st p = { st with aiResponse := st.aiResponse ++ c,
                              published := st.published ++ [st.aiResponse ++ c],
                              hist := publishLast st.hist (st.aiResponse ++ c) true } := by
  simp only [contentOf] at h
  simp only [stepPart, processLine]
  split_ifs at h ⊢ with h1 h2
  injection h with h3
  rw [← h3]

/-- Once the accumulated response is non-empty, a record can only extend
it by its Content payload (Final records can no longer fire). -/
theorem stepPart_resp_of_ne (st : DecodeState) (p : List Char) (h : st.aiResponse ≠ []) :
    (stepPart st p).aiResponse = st.aiResponse ++ (contentOf p).getD [] := by
  simp only [stepPart, processLine, contentOf]
  split_ifs with h1 h2 h3 h4 h5 <;> simp_all

/-- A record that is neither Content nor a usable Final leaves the
accumulated response unchanged. -/
theorem stepPart_resp_none (st : DecodeState) (p : List Char)
    (hc : contentOf p = none) (hf : loopFinalOf p = none) :
    (stepPart st p).aiResponse = st.aiResponse := by
  simp only [contentOf] at hc
  simp only [loopFinalOf] at hf
  simp only [stepPart, processLine]
  split_ifs at hc hf ⊢ <;> simp_all

/-- Accumulation from a non-empty response: the final response is the
initial one followed by all Content payloads, in order. -/
theorem foldl_stepPart_resp_ne (ps : List (List Char)) :
    ∀ st : DecodeState, st.aiResponse ≠ [] →
      (ps.foldl stepPart st).aiResponse =
        st.aiResponse ++ (ps.filterMap contentOf).flatten := by
  induction ps with
  | nil => intro st h; simp
  | cons p ps ih =>
    intro st h
    rw [List.foldl_cons]
    have hne : (stepPart st p).aiResponse ≠ [] := by
      rw [stepPart_resp_of_ne st p h]
      simp [h]
    rw [ih _ hne, stepPart_resp_of_ne st p h, List.filterMap_cons]
    cases hcp : contentOf p <;> simp

/-- Accumulation from the empty response: if no usable Final record occurs
before the first Content record, the final response is exactly the ordered
concatenation of all Content payloads. -/
theorem foldl_stepPart_resp_nil (ps : List (List Char)) :
    ∀ st : DecodeState, st.aiResponse = [] →
      (∀ p ∈ ps.takeWhile (fun p => (contentOf p).isNone), loopFinalOf p = none) →
      (ps.foldl stepPart st).aiResponse = (ps.filterMap contentOf).flatten := by
  induction ps with
  | nil =>
    intro st h hf
    simpa using h
  | cons p ps ih =>
    intro st h hf
    rw [List.foldl_cons, List.filterMap_cons]
    cases hcp : contentOf p with
    | some c =>
      have hc' : c ≠ [] := contentOf_some_ne_nil p c hcp
      have hstep := stepPart_content st p c hcp
      have hne : (stepPart st p).aiResponse ≠ [] := by
        rw [hstep]
        simp [h, hc']
      rw [foldl_stepPart_resp_ne ps _ hne, hstep]
      simp [h]
    | none =>
      have hpred : (fun p => (contentOf p).isNone) p = true := by simp [hcp]
      have htake : (p :: ps).takeWhile (fun p => (contentOf p).isNone) =
          p :: ps.takeWhile (fun p => (contentOf p).isNone) :=
        List.takeWhile_cons_of_pos hpred
      have hfp : loopFinalOf p = none := by
        apply hf p
        rw [htake]
        exact List.mem_cons_self p _
      have hresp := stepPart_resp_none st p hcp hfp
      rw [ih _ (by rw [hresp]; exact h)
        (fun q hq => hf q (by rw [htake]; exact List.mem_cons_of_mem p hq))]

/-- The flush appends the Content payload of the remainder, if there is
one (the flush `data:` branch uses the same guard and extraction). -/
theorem flushBuffer_content (st : DecodeState) (c : List Char)
    (h : contentOf st.buffer = some c) :
    flushBuffer st = { st with aiResponse := st.aiResponse ++ c } := by
  simp only [contentOf] at h
  simp only [flushBuffer]
  split_ifs at h ⊢ with h1 h2
  injection h with h3
  rw [← h3]

/-- With a non-empty response the flush can only append the remainder's
Content payload; its `final:` branch can no longer fire. -/
theorem flushBuffer_resp_ne (st : DecodeState) (h : st.aiResponse ≠ []) :
    (flushBuffer st).aiResponse = st.aiResponse ++ (contentOf st.buffer).getD [] := by
  simp only [flushBuffer, contentOf]
  split_ifs <;> simp_all

theorem flatten_ne_nil_of (L : List (List Char)) (h : L ≠ []) (hm : ∀ c ∈ L, c ≠ []) :
    L.flatten ≠ [] := by
  cases L with
  | nil => exact absurd rfl h
  | cons c L' =>
    have hc := hm c (List.mem_cons_self c L')
    simp [List.flatten_cons, hc]

/-- Claim C2, as stated, is false: when a usable Final record arrives
before any Content record, its payload is installed immediately and the
later Content payload is appended after it, so the resolved text is not
the concatenation of the Content payloads and the Final payload does
appear in it. -/
theorem C2_content_wins_counterexample :
    finalText [strL "final: X\n\ndata: Hello\n\n"] = strL "XHello" ∧
    allContents [strL "final: X\n\ndata: Hello\n\n"] = [strL "Hello"] ∧
    strL "XHello" ≠ strL "Hello" := by
  decide

/-- Claim C2 (amended): for every stream in which at least one Content
record is accumulated and no usable Final record (non-empty, non-sentinel
payload) occurs among the complete records before the first Content
record, the resolved text at stream end is exactly the ordered
concatenation of the unescaped Content payloads and contains no Final
payload. -/
theorem C2_content_wins (chunks : List (List Char))
    (hloop : ∀ p ∈ (recordsOf chunks).takeWhile (fun p => (contentOf p).isNone),
      loopFinalOf p = none)
    (hsome : allContents chunks ≠ []) :
    finalText chunks = (allContents chunks).flatten := by
  unfold finalText
  rw [runLoop_eq]
  have hloopresp :
      (((recordsOf chunks).foldl stepPart
        { initState [] with buffer := remainderOf chunks }).aiResponse) =
        ((recordsOf chunks).filterMap contentOf).flatten :=
    foldl_stepPart_resp_nil _ _ rfl hloop
  have hbufeq :
      ((recordsOf chunks).foldl stepPart
        { initState [] with buffer := remainderOf chunks }).buffer = remainderOf chunks := by
    rw [foldl_stepPart_buffer]
  set st1 := (recordsOf chunks).foldl stepPart
    { initState [] with buffer := remainderOf chunks } with hst1
  by_cases hC : (recordsOf chunks).filterMap contentOf = []
  · have hresp1 : st1.aiResponse = [] := by
      rw [hloopresp, hC]
      rfl
    cases hrem : contentOf (remainderOf chunks) with
    | some c =>
      have hcrem : contentOf st1.buffer = some c := by rw [hbufeq]; exact hrem
      have hc' : c ≠ [] := contentOf_some_ne_nil _ c hrem
      rw [flushBuffer_content st1 c hcrem]
      simp only [resolveText, hresp1]
      unfold allContents
      rw [hC, hrem]
      simp [hc']
    | none =>
      exfalso
      apply hsome
      unfold allContents
      rw [hC, hrem]
      rfl
  · have hmem : ∀ c ∈ (recordsOf chunks).filterMap contentOf, c ≠ [] := by
      intro c hcmem
      obtain ⟨p, -, hp⟩ := List.mem_filterMap.mp hcmem
      exact contentOf_some_ne_nil p c hp
    have hne : st1.aiResponse ≠ [] := by
      rw [hloopresp]
      exact flatten_ne_nil_of _ hC hmem
    have hflush := flushBuffer_resp_ne st1 hne
    rw [hbufeq] at hflush
    have hfne : (flushBuffer st1).aiResponse ≠ [] := by
      rw [hflush]
      simp [hne]
    simp only [resolveText, if_neg hfne]
    rw [hflush, hloopresp]
    unfold allContents
    cases hrem : contentOf (remainderOf chunks) <;> simp

/-- Claim C2, witness: a plain two-record Content stream resolves to the
concatenation of its two payloads. -/
theorem C2_content_wins_witness :
    finalText [strL "data: Hel", strL "lo\n\ndata: World\n\n"] =
      (allContents [strL "data: Hel", strL "lo\n\ndata: World\n\n"]).flatten :=
  C2_content_wins [strL "data: Hel", strL "lo\n\ndata: World\n\n"] (by decide) (by decide)

/-- Claim C6: the message resolved at stream completion is never empty; it
is the last published text, and when neither Content accumulation nor a
usable Final payload produced any text it is the literal fallback string
`"No response generated."`. -/
theorem C6_nonempty_fallback (chunks : List (List Char)) :
    finalText chunks ≠ [] ∧
    lastPart (runStream chunks).published = finalText chunks ∧
    ((flushBuffer (runLoop chunks)).aiResponse = [] →
      finalText chunks = strL "No response generated.") := by
  refine ⟨?_, ?_, ?_⟩
  · unfold finalText resolveText
    split_ifs with h
    · decide
    · exact h
  · have hpub : (runStream chunks).published =
        (flushBuffer (runLoop chunks)).published ++
          [resolveText (flushBuffer (runLoop chunks))] := rfl
    rw [hpub, lastPart_concat]
    rfl
  · intro h
    unfold finalText resolveText
    rw [if_pos h]
    rfl

/-- Claim C6, witness: a stream with only a status record resolves to the
non-empty fallback text. -/
theorem C6_nonempty_fallback_witness :
    finalText [strL "status: done\n\n"] ≠ [] ∧
    finalText [strL "status: done\n\n"] = strL "No response generated." :=
  ⟨(C6_nonempty_fallback [strL "status: done\n\n"]).1,
   (C6_nonempty_fallback [strL "status: done\n\n"]).2.2 (by decide)⟩

/-! ### Unescaping as replacement of every separator occurrence -/

theorem intercalate_single (sep x : List Char) :
    List.intercalate sep [x] = x := by
  simp [List.intercalate, List.intersperse]

theorem intercalate_cons₂ (sep x y : List Char) (zs : List (List Char)) :
    List.intercalate sep (x :: y :: zs) = x ++ sep ++ List.intercalate sep (y :: zs) := by
  simp [List.intercalate, List.intersperse, List.append_assoc]

/-- `unescape` replaces every leftmost non-overlapping occurrence of the
two-character sequence backslash-n with a newline and changes nothing
else: it equals splitting on that sequence and re-joining with a real
newline. -/
theorem unescape_eq_intercalate : ∀ l : List Char,
    unescape l = List.intercalate ['\n'] (splitSep '\\' 'n' l) := by
  intro l
  induction l using splitSep.induct '\\' 'n' with
  | case1 => simp [unescape, splitSep, List.intercalate, List.intersperse]
  | case2 x => simp [unescape, splitSep, List.intercalate, List.intersperse]
  | case3 x y rest hxy ih =>
    simp only [unescape, splitSep, if_pos hxy]
    rw [ih]
    cases hS : splitSep '\\' 'n' rest with
    | nil => exact absurd hS (splitSep_ne_nil '\\' 'n' rest)
    | cons s0 ss =>
      rw [intercalate_cons₂]
      simp
  | case4 x y rest hxy ih =>
    simp only [unescape, splitSep, if_neg hxy]
    rw [ih]
    cases hS : splitSep '\\' 'n' (y :: rest) with
    | nil => exact absurd hS (splitSep_ne_nil '\\' 'n' (y :: rest))
    | cons s0 ss =>
      simp only [consHead]
      cases ss with
      | nil => simp [intercalate_single]
      | cons t ts =>
        rw [intercalate_cons₂, intercalate_cons₂]
        simp

/-- Claim C7: every literal backslash-n pair in a Content payload is
replaced with a real newline before concatenation (equivalently, the
payload is split on backslash-n and re-joined with newline), no other
escape sequence is interpreted (e.g. backslash-t is kept verbatim), and
the payload `"line1\\nline2"` accumulates to text with a real newline
between `"line1"` and `"line2"`. -/
theorem C7_unescaping :
    (∀ payload : List Char,
      unescape payload = List.intercalate ['\n'] (splitSep '\\' 'n' payload)) ∧
    finalText [strL "data: line1\\nline2\n\n"] = strL "line1\nline2" ∧
    unescape (strL "a\\tb") = strL "a\\tb" :=
  ⟨unescape_eq_intercalate, by decide, by decide⟩

/-- Claim C8: a complete record whose trimmed form starts with none of the
three recognized tags is ignored entirely: it leaves the decoder state
untouched, never reaches the message text, and removing it from a record
sequence does not change the result of processing. -/
theorem C8_unknown_tolerance (p : List Char)
    (hne : trimList p ≠ [])
    (h1 : dataTag.isPrefixOf (trimList p) = false)
    (h2 : statusTag.isPrefixOf (trimList p) = false)
    (h3 : finalTag.isPrefixOf (trimList p) = false) :
    (∀ st : DecodeState, stepPart st p = st) ∧
    ∀ (ps1 ps2 : List (List Char)) (st : DecodeState),
      (ps1 ++ p :: ps2).foldl stepPart st = (ps1 ++ ps2).foldl stepPart st := by
  have hstep : ∀ st : DecodeState, stepPart st p = st := by
    intro st
    simp [stepPart, processLine, hne, h1, h2, h3]
  refine ⟨hstep, ?_⟩
  intro ps1 ps2 st
  rw [List.foldl_append, List.foldl_append, List.foldl_cons, hstep]

/-- Claim C8, witness: a `ping: keepalive` record is ignored, both alone
and inside a record sequence. -/
theorem C8_unknown_tolerance_witness :
    stepPart (initState []) (strL "ping: keepalive") = initState [] ∧
    ([strL "data: Hi"] ++ strL "ping: keepalive" :: [strL "data: !"]).foldl stepPart
        (initState []) =
      ([strL "data: Hi"] ++ [strL "data: !"]).foldl stepPart (initState []) :=
  ⟨(C8_unknown_tolerance (strL "ping: keepalive")
      (by decide) (by decide) (by decide) (by decide)).1 (initState []),
   (C8_unknown_tolerance (strL "ping: keepalive")
      (by decide) (by decide) (by decide) (by decide)).2
     [strL "data: Hi"] [strL "data: !"] (initState [])⟩

/-! ### Status records touch only the status variable -/

theorem stepPart_visible_congr (st1 st2 : DecodeState) (p : List Char)
    (h : visible st1 = visible st2) :
    visible (stepPart st1 p) = visible (stepPart st2 p) := by
  obtain ⟨r1, b1, m1, pub1, hh1⟩ := st1
  obtain ⟨r2, b2, m2, pub2, hh2⟩ := st2
  simp only [visible, Prod.mk.injEq] at h
  obtain ⟨hr, hb, hpub, hh⟩ := h
  subst hr
  subst hb
  subst hpub
  subst hh
  simp only [stepPart, processLine, visible]
  split_ifs <;> rfl

theorem foldl_stepPart_visible_congr (ps : List (List Char)) :
    ∀ st1 st2 : DecodeState, visible st1 = visible st2 →
      visible (ps.foldl stepPart st1) = visible (ps.foldl stepPart st2) := by
  induction ps with
  | nil => intro _ _ h; exact h
  | cons p ps ih =>
    intro st1 st2 h
    rw [List.foldl_cons, List.foldl_cons]
    exact ih _ _ (stepPart_visible_congr _ _ p h)

theorem data_not_of_status (t : List Char) :
    dataTag.isPrefixOf (statusTag ++ t) = false := rfl

theorem stepPart_status (st : DecodeState) (p : List Char)
    (hs : statusTag.isPrefixOf (trimList p) = true) :
    stepPart st p = { st with statusMsg := (trimList p).drop 8 } := by
  obtain ⟨t, ht⟩ := (isPrefixOf_true_iff _ _).mp hs
  have hne : trimList p ≠ [] := by
    rw [ht]
    simp [statusTag, strL]
  have hd : dataTag.isPrefixOf (trimList p) = false := by
    rw [ht]
    exact data_not_of_status t
  simp [stepPart, processLine, hne, hd, hs]

/-- Claim C9: processing a Status record changes only the observed status
variable: the state update is exactly `statusMsg := payload`, and
inserting or removing a Status record from a record sequence leaves every
UI-visible component of the final state (response text, buffer,
publication log, chat history) unchanged. -/
theorem C9_status_noninterference (p : List Char)
    (hs : statusTag.isPrefixOf (trimList p) = true) :
    (∀ st : DecodeState, stepPart st p = { st with statusMsg := (trimList p).drop 8 }) ∧
    ∀ (ps1 ps2 : List (List Char)) (st : DecodeState),
      visible ((ps1 ++ p :: ps2).foldl stepPart st) =
        visible ((ps1 ++ ps2).foldl stepPart st) := by
  refine ⟨fun st => stepPart_status st p hs, ?_⟩
  intro ps1 ps2 st
  rw [List.foldl_append, List.foldl_append, List.foldl_cons, stepPart_status _ p hs]
  exact foldl_stepPart_visible_congr ps2 _ _ rfl

/-- Claim C9, witness: a concrete status record updates only `statusMsg`
and does not disturb the visible outcome of a surrounding sequence. -/
theorem C9_status_noninterference_witness :
    stepPart (initState []) (strL "status: Building") =
      { initState [] with statusMsg := (trimList (strL "status: Building")).drop 8 } ∧
    visible (([strL "data: Hi"] ++ strL "status: Building" :: [strL "data: !"]).foldl
        stepPart (initState [])) =
      visible (([strL "data: Hi"] ++ [strL "data: !"]).foldl stepPart (initState [])) :=
  ⟨(C9_status_noninterference (strL "status: Building") (by decide)).1 (initState []),
   (C9_status_noninterference (strL "status: Building") (by decide)).2
     [strL "data: Hi"] [strL "data: !"] (initState [])⟩

/-! ### Trimming lemmas -/

theorem dropWhile_append_all (p : Char → Bool) (a b : List Char)
    (h : ∀ c ∈ a, p c = true) : (a ++ b).dropWhile p = b.dropWhile p := by
  induction a with
  | nil => rfl
  | cons x a' ih =>
    rw [List.cons_append, List.dropWhile_cons_of_pos (h x (List.mem_cons_self x a'))]
    exact ih (fun c hc => h c (List.mem_cons_of_mem x hc))

theorem dropWhile_all (p : Char → Bool) (w : List Char)
    (h : ∀ c ∈ w, p c = true) : w.dropWhile p = [] := by
  have := dropWhile_append_all p w [] h
  simpa using this

/-- Trailing whitespace never survives a trim: trimming is insensitive to
a whitespace-only suffix. -/
theorem trimList_append_ws (l w : List Char) (hw : ∀ c ∈ w, isWS c = true) :
    trimList (l ++ w) = trimList l := by
  induction l with
  | nil =>
    unfold trimList
    rw [List.nil_append, dropWhile_all isWS w hw]
    rfl
  | cons x l' ih =>
    by_cases hx : isWS x = true
    · have e1 : trimList ((x :: l') ++ w) = trimList (l' ++ w) := by
        unfold trimList
        rw [List.cons_append, List.dropWhile_cons_of_pos hx]
      have e2 : trimList (x :: l') = trimList l' := by
        unfold trimList
        rw [List.dropWhile_cons_of_pos hx]
      rw [e1, e2, ih]
    · unfold trimList
      rw [List.cons_append, List.dropWhile_cons_of_neg hx, List.dropWhile_cons_of_neg hx,
        List.reverse_cons, List.reverse_cons, List.reverse_append, List.append_assoc,
        dropWhile_append_all isWS w.reverse _
          (fun c hc => hw c (List.mem_reverse.mp hc))]

theorem headD_of_append (L M : List Char) (d : Char) (h : L ≠ []) :
    (L ++ M).headD d = L.headD d := by
  cases L with
  | nil => exact absurd rfl h
  | cons x xs => rfl

theorem getLastD_eq_headD_reverse (l : List Char) (d : Char) :
    l.getLastD d = l.reverse.headD d := by
  have h := getLastD_reverse l.reverse d
  rwa [List.reverse_reverse] at h

theorem getLastD_append_right (a x : List Char) (d : Char) (hx : x ≠ []) :
    (a ++ x).getLastD d = x.getLastD d := by
  rw [getLastD_eq_headD_reverse, getLastD_eq_headD_reverse, List.reverse_append,
    headD_of_append x.reverse a.reverse d (by simpa using hx)]

/-- A string that neither starts nor ends with whitespace trims to
itself. -/
theorem trimList_eq_self (l : List Char) (hh : isWS (l.headD ' ') = false)
    (hl : isWS (l.getLastD ' ') = false) : trimList l = l := by
  unfold trimList
  have h1 : l.dropWhile isWS = l := by
    cases l with
    | nil => rfl
    | cons c cs => exact List.dropWhile_cons_of_neg (by simp_all)
  rw [h1]
  have h2 : l.reverse.dropWhile isWS = l.reverse := by
    cases hr : l.reverse with
    | nil => rfl
    | cons y ys =>
      rw [← hr]
      have hy : y = l.getLastD ' ' := by
        rw [getLastD_eq_headD_reverse, hr]
        rfl
      have hyws : isWS y = false := by rw [hy]; exact hl
      rw [hr]
      exact List.dropWhile_cons_of_neg (by simp [hyws])
  rw [h2, List.reverse_reverse]

/-- Claim C10: records are whitespace-trimmed before classification, so a
`data:` record whose payload is empty or whitespace-only loses its
trailing space, fails the `"data: "` prefix test, and is ignored entirely
(no text, no publication); and the trailing whitespace of a Content
payload is stripped before unescaping and accumulation. -/
theorem C10_trim_classification (st : DecodeState) (w x : List Char)
    (hw : ∀ c ∈ w, isWS c = true)
    (hx : x ≠ []) (hlast : isWS (x.getLastD ' ') = false) :
    stepPart st (strL "data:" ++ w) = st ∧
    stepPart st (dataTag ++ x ++ w) =
      { st with aiResponse := st.aiResponse ++ unescape x,
                published := st.published ++ [st.aiResponse ++ unescape x],
                hist := publishLast st.hist (st.aiResponse ++ unescape x) true } := by
  constructor
  · have ht : trimList (strL "data:" ++ w) = strL "data:" := by
      rw [trimList_append_ws _ w hw]
      decide
    have e1 : (strL "data:" : List Char) ≠ [] := by decide
    have e2 : dataTag.isPrefixOf (strL "data:") = false := by decide
    have e3 : statusTag.isPrefixOf (strL "data:") = false := by decide
    have e4 : finalTag.isPrefixOf (strL "data:") = false := by decide
    simp [stepPart, processLine, ht, e1, e2, e3, e4]
  · have ht2 : trimList (dataTag ++ x ++ w) = dataTag ++ x := by
      rw [trimList_append_ws (dataTag ++ x) w hw]
      apply trimList_eq_self
      · rw [headD_of_append dataTag x ' ' (by decide)]
        decide
      · rw [getLastD_append_right dataTag x ' ' hx]
        exact hlast
    have hne : (dataTag ++ x : List Char) ≠ [] := by
      intro hc
      exact absurd (List.append_eq_nil.mp hc).1 (by decide)
    have ht2' : trimList (dataTag ++ (x ++ w)) = dataTag ++ x := by
      rw [← List.append_assoc]
      exact ht2
    have hprefP : dataTag <+: dataTag ++ x := List.prefix_append _ _
    have hdrop : (dataTag ++ x).drop 6 = x := by
      rw [show (6 : Nat) = dataTag.length from by decide, List.drop_left]
    simp [stepPart, processLine, ht2', hne, hprefP, hdrop]

/-- Claim C10, witness: `"data:  "` is ignored outright, and
`"data: hi  "` accumulates exactly the payload `"hi"`. -/
theorem C10_trim_classification_witness :
    stepPart (initState []) (strL "data:" ++ strL "  ") = initState [] ∧
    stepPart (initState []) (dataTag ++ strL "hi" ++ strL "  ") =
      { initState [] with
          aiResponse := (initState []).aiResponse ++ unescape (strL "hi"),
          published := (initState []).published ++
            [(initState []).aiResponse ++ unescape (strL "hi")],
          hist := publishLast (initState []).hist
            ((initState []).aiResponse ++ unescape (strL "hi")) true } :=
  C10_trim_classification (initState []) (strL "  ") (strL "hi")
    (by decide) (by decide) (by decide)

/-! ### Monotone publication invariant -/

/-- Pairwise chaining of a relation along a list of texts. -/
def chainBy (R : List Char → List Char → Prop) : List (List Char) → Prop
  | [] => True
  | [_] => True
  | a :: b :: rest => R a b ∧ chainBy R (b :: rest)

theorem chainBy_concat (R : List Char → List Char → Prop) :
    ∀ (L : List (List Char)) (x : List Char), chainBy R L →
      (L = [] ∨ R (lastPart L) x) → chainBy R (L ++ [x]) := by
  intro L
  induction L with
  | nil =>
    intro x _ _
    exact trivial
  | cons a L' ih =>
    intro x hC hR
    cases L' with
    | nil =>
      refine ⟨?_, trivial⟩
      simpa [lastPart] using hR.resolve_left (by simp)
    | cons b L'' =>
      obtain ⟨hab, hC'⟩ := hC
      exact ⟨hab, ih x hC' (Or.inr (hR.resolve_left (by simp)))⟩

theorem chainBy_imp (R S : List Char → List Char → Prop)
    (h : ∀ a b, R a b → S a b) : ∀ L, chainBy R L → chainBy S L := by
  intro L
  induction L with
  | nil => intro _; exact trivial
  | cons a L' ih =>
    cases L' with
    | nil => intro _; exact trivial
    | cons b L'' =>
      intro hC
      exact ⟨h a b hC.1, ih hC.2⟩

/-- The publication invariant maintained throughout a session: the log is
non-empty, each published text is a prefix of the next, and the last
published text is a prefix of the current accumulated response. -/
def PubInv (st : DecodeState) : Prop :=
  st.published ≠ [] ∧ chainBy (fun a b => a <+: b) st.published ∧
    lastPart st.published <+: st.aiResponse

theorem stepPart_pubinv (st : DecodeState) (p : List Char) (h : PubInv st) :
    PubInv (stepPart st p) := by
  obtain ⟨h1, h2, h3⟩ := h
  unfold PubInv
  simp only [stepPart, processLine]
  split_ifs with g1 g2 g3 g4 g5
  · exact ⟨h1, h2, h3⟩
  · refine ⟨by simp, ?_, ?_⟩
    · exact chainBy_concat _ _ _ h2 (Or.inr (h3.trans (List.prefix_append _ _)))
    · rw [lastPart_concat]
  · exact ⟨h1, h2, h3⟩
  · refine ⟨h1, h2, ?_⟩
    have h3' := h3
    rw [g5.2.2] at h3'
    obtain ⟨t, ht⟩ := h3'
    rw [(List.append_eq_nil.mp ht).1]
    exact ⟨_, rfl⟩
  · exact ⟨h1, h2, h3⟩
  · exact ⟨h1, h2, h3⟩

theorem foldl_stepPart_pubinv (ps : List (List Char)) :
    ∀ st : DecodeState, PubInv st → PubInv (ps.foldl stepPart st) := by
  induction ps with
  | nil => intro st h; exact h
  | cons p ps ih =>
    intro st h
    rw [List.foldl_cons]
    exact ih _ (stepPart_pubinv st p h)

theorem processChunk_pubinv (st : DecodeState) (c : List Char) (h : PubInv st) :
    PubInv (processChunk st c) := by
  have hb : PubInv { st with buffer := lastPart (splitNN (st.buffer ++ c)) } := by
    obtain ⟨h1, h2, h3⟩ := h
    exact ⟨h1, h2, h3⟩
  exact foldl_stepPart_pubinv _ _ hb

theorem foldl_processChunk_pubinv (chunks : List (List Char)) :
    ∀ st : DecodeState, PubInv st → PubInv (chunks.foldl processChunk st) := by
  induction chunks with
  | nil => intro st h; exact h
  | cons c cs ih =>
    intro st h
    rw [List.foldl_cons]
    exact ih _ (processChunk_pubinv st c h)

theorem flushBuffer_pubinv (st : DecodeState) (h : PubInv st) :
    PubInv (flushBuffer st) := by
  obtain ⟨h1, h2, h3⟩ := h
  unfold PubInv
  simp only [flushBuffer]
  split_ifs with g1 g2 g3 g4
  · exact ⟨h1, h2, h3⟩
  · exact ⟨h1, h2, h3.trans (List.prefix_append _ _)⟩
  · refine ⟨h1, h2, ?_⟩
    have h3' := h3
    rw [g4.2] at h3'
    obtain ⟨t, ht⟩ := h3'
    rw [(List.append_eq_nil.mp ht).1]
    exact ⟨_, rfl⟩
  · exact ⟨h1, h2, h3⟩
  · exact ⟨h1, h2, h3⟩

theorem completeStep_chain (st : DecodeState) (h : PubInv st) :
    chainBy (fun a b => a <+: b) (completeStep st).published := by
  obtain ⟨h1, h2, h3⟩ := h
  show chainBy _ (st.published ++ [resolveText st])
  apply chainBy_concat _ _ _ h2
  right
  unfold resolveText
  split_ifs with hres
  · have h3' := h3
    rw [hres] at h3'
    obtain ⟨t, ht⟩ := h3'
    rw [(List.append_eq_nil.mp ht).1]
    exact ⟨_, rfl⟩
  · exact h3

/-- Claim C5: over a whole successful session — the empty placeholder, the
in-progress publications, and the Completed publication — every published
assistant text has the previously published text as a prefix, and the
published lengths are non-decreasing. -/
theorem C5_monotone_publications (chunks : List (List Char)) :
    chainBy (fun a b => a <+: b) (runStream chunks).published ∧
    chainBy (fun a b => a.length ≤ b.length) (runStream chunks).published := by
  have hinit : PubInv (initState []) := ⟨by decide, trivial, ⟨[], rfl⟩⟩
  have hloop : PubInv (runLoop chunks) := foldl_processChunk_pubinv chunks _ hinit
  have hflush : PubInv (flushBuffer (runLoop chunks)) := flushBuffer_pubinv _ hloop
  have hchain := completeStep_chain _ hflush
  exact ⟨hchain, chainBy_imp _ _ (fun a b hab => hab.length_le) _ hchain⟩

/-! ### The error path keeps the partial bubble -/

theorem lastMsg_concat (L : List Msg) (m : Msg) : lastMsg (L ++ [m]) = some m := by
  induction L with
  | nil => rfl
  | cons x L' ih =>
    cases L' with
    | nil => rfl
    | cons y L'' =>
      simp only [List.cons_append, lastMsg] at ih ⊢
      exact ih

theorem setLast_concat (L : List Msg) (m m' : Msg) : setLast (L ++ [m]) m' = L ++ [m'] := by
  induction L with
  | nil => rfl
  | cons x L' ih =>
    cases L' with
    | nil => rfl
    | cons y L'' =>
      simp only [List.cons_append, List.append_eq, setLast] at ih ⊢
      rw [ih]

/-- Publishing onto a history ending in an assistant message replaces
exactly that last message. -/
theorem publishLast_concat_ai (L : List Msg) (t : List Char) (sb : Bool)
    (text : List Char) (s0 : Bool) :
    publishLast (L ++ [⟨Role.ai, t, sb⟩]) text s0 = L ++ [⟨Role.ai, text, s0⟩] := by
  unfold publishLast
  rw [lastMsg_concat]
  simp [setLast_concat]

/-- The history invariant of the streaming loop: the chat history is the
turn's base (previous history plus the user message) followed by exactly
one assistant bubble carrying the last published text. -/
def HistInv (base : List Msg) (st : DecodeState) : Prop :=
  st.hist = base ++ [⟨Role.ai, lastPart st.published, true⟩]

theorem stepPart_histinv (base : List Msg) (st : DecodeState) (p : List Char)
    (h : HistInv base st) : HistInv base (stepPart st p) := by
  unfold HistInv at h ⊢
  simp only [stepPart, processLine]
  split_ifs with g1 g2 g3 g4 g5
  · exact h
  · dsimp only
    rw [h, publishLast_concat_ai, lastPart_concat]
  · exact h
  · exact h
  · exact h
  · exact h

theorem foldl_stepPart_histinv (base : List Msg) (ps : List (List Char)) :
    ∀ st : DecodeState, HistInv base st → HistInv base (ps.foldl stepPart st) := by
  induction ps with
  | nil => intro st h; exact h
  | cons p ps ih =>
    intro st h
    rw [List.foldl_cons]
    exact ih _ (stepPart_histinv base st p h)

theorem processChunk_histinv (base : List Msg) (st : DecodeState) (c : List Char)
    (h : HistInv base st) : HistInv base (processChunk st c) := by
  have hb : HistInv base { st with buffer := lastPart (splitNN (st.buffer ++ c)) } := h
  exact foldl_stepPart_histinv base _ _ hb

theorem foldl_processChunk_histinv (base : List Msg) (chunks : List (List Char)) :
    ∀ st : DecodeState, HistInv base st → HistInv base (chunks.foldl processChunk st) := by
  induction chunks with
  | nil => intro st h; exact h
  | cons c cs ih =>
    intro st h
    rw [List.foldl_cons]
    exact ih _ (processChunk_histinv base st c h)

/-- Claim C4, as stated, is false: after a mid-stream transport error the
catch branch appends the error message, so the history retains the
partially streamed assistant bubble (here `"Hi"`, still marked streaming)
immediately followed by the error text. -/
theorem C4_error_replaces_counterexample :
    runTurnErr [] (strL "hi") [strL "data: Hi\n\n"] =
      [userMsg (strL "hi"), ⟨Role.ai, strL "Hi", true⟩, errMsg] ∧
    (⟨Role.ai, strL "Hi", true⟩ : Msg) ∈ runTurnErr [] (strL "hi") [strL "data: Hi\n\n"] := by
  decide

/-- Claim C4 (amended): on a transport error during streaming, exactly one
error message is appended to the chat history; the in-progress assistant
bubble is retained with the last published partial text rather than being
replaced, so the history ends with the partial bubble followed by the
error message. -/
theorem C4_error_appended (prev : List Msg) (q : List Char) (chunks : List (List Char)) :
    runTurnErr prev q chunks =
      prev ++ [userMsg q] ++
        [⟨Role.ai, lastPart (chunks.foldl processChunk
            (initState (prev ++ [userMsg q]))).published, true⟩, errMsg] := by
  unfold runTurnErr
  have hinit : HistInv (prev ++ [userMsg q]) (initState (prev ++ [userMsg q])) := rfl
  have hinv := foldl_processChunk_histinv (prev ++ [userMsg q]) chunks _ hinit
  rw [hinv]
  simp
